import Mathlib

/-!
Shallow embedding of `newmoon_fullmoon.py`: a script that correlates
earthquake times with lunar phase events and lunar perigees.

Times are modelled as rational numbers (seconds on a UTC timeline);
floating-point distances and angles are modelled as rationals.  The
ephemeris library (skyfield) is an external collaborator: the Earth-Moon
distance function and the sub-point function are abstract parameters.
-/

namespace NewmoonFullmoon

/-- Configuration constant `NEW_MOON_WINDOW_HOURS = 36` (line 17). -/
def NEW_MOON_WINDOW_HOURS : ℚ := 36

/-- Configuration constant `PERIGEE_WINDOW_DAYS = 2` (line 18). -/
def PERIGEE_WINDOW_DAYS : ℚ := 2

/-- Configuration constant `PERIGEE_STEP_HOURS = 6` (line 19). -/
def PERIGEE_STEP_HOURS : ℚ := 6

/-- Configuration constant `DELTA_LAT_THRESHOLD = 10` (line 20). -/
def DELTA_LAT_THRESHOLD : ℚ := 10

/-!
### `np.argmin`

`nearest_time` (lines 105-108) computes `idx = np.argmin(deltas)`.
`np.argmin` returns the index of the first occurrence of the minimum
value, and raises on an empty array; we embed it as a scan that keeps
the current best index and value, updating only on a strict decrease,
and returns `none` on the empty list.
-/

/-- Scan of the remaining list `l`, carrying the best index `bi` and best
value `bv` seen so far and the absolute index `i` of the head of `l`.
The best is replaced only when a strictly smaller value appears, so the
returned index is the first occurrence of the minimum. -/
def argminAux : List ℚ → ℕ → ℚ → ℕ → ℕ
  | [], bi, _, _ => bi
  | x :: xs, bi, bv, i =>
    if x < bv then argminAux xs i x (i + 1) else argminAux xs bi bv (i + 1)

/-- `np.argmin`: index of the first occurrence of the minimum value;
`none` on an empty list (numpy raises `ValueError` there). -/
def argmin : List ℚ → Option ℕ
  | [] => none
  | x :: xs => some (argminAux xs 0 x 1)

/-- `nearest_time(target, time_list)` (lines 105-108): build the list of
absolute offsets in seconds, take the argmin index, and return the
matched instant together with its absolute offset.  `none` models the
`ValueError` numpy raises when `time_list` is empty. -/
def nearest_time (target : ℚ) (time_list : List ℚ) : Option (ℚ × ℚ) :=
  let deltas := time_list.map (fun t => |target - t|)
  match argmin deltas with
  | none => none
  | some idx => some (time_list.getD idx 0, deltas.getD idx 0)

/-! ### Specification of `argmin` -/

theorem argminAux_spec (l : List ℚ) : ∀ (bi : ℕ) (bv : ℚ) (i : ℕ),
    (argminAux l bi bv i = bi ∧ ∀ k (hk : k < l.length), bv ≤ l.get ⟨k, hk⟩) ∨
    (∃ k, ∃ hk : k < l.length,
      argminAux l bi bv i = i + k ∧ l.get ⟨k, hk⟩ < bv ∧
      (∀ j (hj : j < l.length), l.get ⟨k, hk⟩ ≤ l.get ⟨j, hj⟩) ∧
      (∀ j (hj : j < k), l.get ⟨k, hk⟩ < l.get ⟨j, Nat.lt_trans hj hk⟩)) := by
  induction l with
  | nil =>
    intro bi bv i
    left
    exact ⟨rfl, fun k hk => absurd hk (Nat.not_lt_zero k)⟩
  | cons x xs ih =>
    intro bi bv i
    by_cases hx : x < bv
    · -- the head strictly improves on the best so far
      rcases ih i x (i + 1) with ⟨heq, hall⟩ | ⟨k, hk, heq, hlt, hall, hfirst⟩
      · right
        refine ⟨0, Nat.succ_pos _, ?_, ?_, ?_, ?_⟩
        · simpa [argminAux, hx] using heq
        · simpa using hx
        · intro j hj
          cases j with
          | zero => simp
          | succ j' =>
            have hj' : j' < xs.length := Nat.lt_of_succ_lt_succ hj
            simpa using hall j' hj'
        · intro j hj
          exact absurd hj (Nat.not_lt_zero j)
      · right
        refine ⟨k + 1, Nat.succ_lt_succ hk, ?_, ?_, ?_, ?_⟩
        · simp only [argminAux, if_pos hx]
          rw [heq]
          omega
        · calc (x :: xs).get ⟨k + 1, Nat.succ_lt_succ hk⟩ = xs.get ⟨k, hk⟩ := rfl
            _ < x := hlt
            _ < bv := hx
        · intro j hj
          cases j with
          | zero => exact le_of_lt hlt
          | succ j' =>
            have hj' : j' < xs.length := Nat.lt_of_succ_lt_succ hj
            exact hall j' hj'
        · intro j hj
          cases j with
          | zero => exact hlt
          | succ j' =>
            have hj' : j' < k := Nat.lt_of_succ_lt_succ hj
            exact hfirst j' hj'
    · -- the head does not improve: keep the current best
      rcases ih bi bv (i + 1) with ⟨heq, hall⟩ | ⟨k, hk, heq, hlt, hall, hfirst⟩
      · left
        refine ⟨by simpa [argminAux, hx] using heq, ?_⟩
        intro k hk
        cases k with
        | zero => simpa using le_of_not_lt hx
        | succ k' =>
          have hk' : k' < xs.length := Nat.lt_of_succ_lt_succ hk
          simpa using hall k' hk'
      · right
        refine ⟨k + 1, Nat.succ_lt_succ hk, ?_, hlt, ?_, ?_⟩
        · simp only [argminAux, if_neg hx]
          rw [heq]
          omega
        · intro j hj
          cases j with
          | zero =>
            exact le_of_lt (lt_of_lt_of_le hlt (le_of_not_lt hx))
          | succ j' =>
            have hj' : j' < xs.length := Nat.lt_of_succ_lt_succ hj
            exact hall j' hj'
        · intro j hj
          cases j with
          | zero =>
            exact lt_of_lt_of_le hlt (le_of_not_lt hx)
          | succ j' =>
            have hj' : j' < k := Nat.lt_of_succ_lt_succ hj
            exact hfirst j' hj'

/-- A nonempty list has an argmin index: the first index achieving the
minimum value. -/
theorem argmin_spec (l : List ℚ) (hne : l ≠ []) :
    ∃ i, ∃ hi : i < l.length, argmin l = some i ∧
      (∀ j (hj : j < l.length), l.get ⟨i, hi⟩ ≤ l.get ⟨j, hj⟩) ∧
      (∀ j (hj : j < i), l.get ⟨i, hi⟩ < l.get ⟨j, Nat.lt_trans hj hi⟩) := by
  match l with
  | [] => exact absurd rfl hne
  | x :: xs =>
    rcases argminAux_spec xs 0 x 1 with ⟨heq, hall⟩ | ⟨k, hk, heq, hlt, hall, hfirst⟩
    · refine ⟨0, Nat.succ_pos _, ?_, ?_, ?_⟩
      · simpa [argmin] using heq
      · intro j hj
        cases j with
        | zero => simp
        | succ j' =>
          have hj' : j' < xs.length := Nat.lt_of_succ_lt_succ hj
          simpa using hall j' hj'
      · intro j hj
        exact absurd hj (Nat.not_lt_zero j)
    · refine ⟨k + 1, Nat.succ_lt_succ hk, ?_, ?_, ?_⟩
      · simp only [argmin, Option.some.injEq]
        rw [heq]
        omega
      · intro j hj
        cases j with
        | zero => exact le_of_lt hlt
        | succ j' =>
          have hj' : j' < xs.length := Nat.lt_of_succ_lt_succ hj
          exact hall j' hj'
      · intro j hj
        cases j with
        | zero => exact hlt
        | succ j' =>
          have hj' : j' < k := Nat.lt_of_succ_lt_succ hj
          exact hfirst j' hj'

/-- `argmin` fails exactly on the empty list. -/
theorem argmin_eq_none_iff (l : List ℚ) : argmin l = none ↔ l = [] := by
  cases l <;> simp [argmin]

/-- `nearest_time` fails exactly on the empty list. -/
theorem nearest_time_eq_none_iff (target : ℚ) (time_list : List ℚ) :
    nearest_time target time_list = none ↔ time_list = [] := by
  cases time_list with
  | nil => simp [nearest_time, argmin]
  | cons x xs =>
    simp only [nearest_time, List.map_cons, argmin]
    exact ⟨fun h => by simp at h, fun h => by simp at h⟩

/-- Full correctness of `nearest_time` on a nonempty list: it returns a
member of the list together with its absolute offset, the offset is a
global minimum, and the returned instant is the strictly first index
achieving the minimum, hence on a sorted list it is the earliest
minimiser. -/
theorem nearest_time_spec (target : ℚ) (time_list : List ℚ) (hne : time_list ≠ []) :
    ∃ m d, nearest_time target time_list = some (m, d) ∧ m ∈ time_list ∧
      d = |target - m| ∧
      (∀ t ∈ time_list, |target - m| ≤ |target - t|) ∧
      (time_list.Sorted (· ≤ ·) → ∀ t ∈ time_list, |target - t| = |target - m| → m ≤ t) := by
  set deltas := time_list.map (fun t => |target - t|) with hdeltas
  have hdne : deltas ≠ [] := by
    simpa [hdeltas] using hne
  have hdlen : deltas.length = time_list.length := by simp [hdeltas]
  obtain ⟨i, hi, hargmin, hmin, hfirst⟩ := argmin_spec deltas hdne
  have hi' : i < time_list.length := hdlen ▸ hi
  have hget : ∀ j (hj : j < time_list.length),
      deltas.get ⟨j, hdlen ▸ hj⟩ = |target - time_list.get ⟨j, hj⟩| := by
    intro j hj
    simp [hdeltas]
  refine ⟨time_list.get ⟨i, hi'⟩, deltas.get ⟨i, hi⟩, ?_, ?_, ?_, ?_, ?_⟩
  · have h1 : time_list.getD i 0 = time_list.get ⟨i, hi'⟩ := by
      rw [List.getD_eq_getElem _ _ hi']
      simp
    have h2 : deltas.getD i 0 = deltas.get ⟨i, hi⟩ := by
      rw [List.getD_eq_getElem _ _ hi]
      simp
    simp only [nearest_time, ← hdeltas, hargmin, h1, h2]
  · exact List.get_mem _ i hi'
  · exact hget i hi'
  · intro t ht
    obtain ⟨⟨j, hj⟩, rfl⟩ := List.mem_iff_get.mp ht
    have := hmin j (hdlen ▸ hj)
    rw [hget i hi', hget j hj] at this
    exact this
  · intro hsorted t ht htie
    obtain ⟨⟨j, hj⟩, rfl⟩ := List.mem_iff_get.mp ht
    -- the first-minimum property forbids j < i
    have hij : i ≤ j := by
      by_contra hlt
      push_neg at hlt
      have hstrict := hfirst j hlt
      rw [hget i hi', hget j hj] at hstrict
      exact absurd htie (ne_of_gt hstrict)
    rcases eq_or_lt_of_le hij with heq | hlt
    · exact le_of_eq (by congr 1; exact Fin.ext heq)
    · exact List.pairwise_iff_get.mp hsorted ⟨i, hi'⟩ ⟨j, hj⟩ hlt

/-!
### Perigee Detector (lines 86-98)

The source walks `t` from `START_DATE` while `t <= END_DATE`, sampling
the Earth-Moon distance at each step; when the current distance exceeds
the previous sample's it appends the previous sample's time to
`perigees`.  The `while` loop terminates only if `t` eventually exceeds
the end instant, so it is embedded with explicit fuel: `none` means the
loop has not finished within the given fuel (in particular, a loop that
never finishes yields `none` for every fuel).
-/

/-- The loop body of lines 91-98.  State: current time `t`, previous
sample `prev = some (prev_dist, prev_time)` (`none` before the first
iteration, like the initial `prev_dist = None`), and the accumulated
perigee times in reverse order. -/
def perigeeLoopAux (dist : ℚ → ℚ) (endT step : ℚ) :
    ℕ → ℚ → Option (ℚ × ℚ) → List ℚ → Option (List ℚ)
  | 0, t, _, acc => if endT < t then some acc.reverse else none
  | fuel + 1, t, prev, acc =>
    if endT < t then some acc.reverse
    else
      let d := dist t
      let acc' := match prev with
        | some (pd, pt) => if pd < d then pt :: acc else acc
        | none => acc
      perigeeLoopAux dist endT step fuel (t + step) (some (d, t)) acc'

/-- The perigee sampling loop of lines 86-98, with the start/end instants
and the step as parameters and the Earth-Moon distance function `dist`
abstracting `earth.at(tt).observe(moon).distance().km`. -/
def perigeeLoop (dist : ℚ → ℚ) (startT endT step : ℚ) (fuel : ℕ) : Option (List ℚ) :=
  perigeeLoopAux dist endT step fuel startT none []

/-- The sequence of sample times the loop visits: `startT`,
`startT + step`, ... while `≤ endT`, truncated by fuel. -/
def sampleTimes (endT step : ℚ) : ℕ → ℚ → List ℚ
  | 0, _ => []
  | fuel + 1, t => if endT < t then [] else t :: sampleTimes endT step fuel (t + step)

/-- Pure one-sample-lag local-minimum detector over an explicit list of
sample times: report `t_(i-1)` whenever `dist t_i > dist t_(i-1)`. -/
def detectPerigees (dist : ℚ → ℚ) : List ℚ → List ℚ
  | t0 :: t1 :: rest =>
    if dist t0 < dist t1 then t0 :: detectPerigees dist (t1 :: rest)
    else detectPerigees dist (t1 :: rest)
  | _ => []

/-- Invariant of the loop body: once a previous sample `pt` is recorded,
a successful run produces exactly the accumulator followed by the pure
detector's output on `pt` and the remaining sample times. -/
theorem perigeeLoopAux_some (dist : ℚ → ℚ) (endT step : ℚ) :
    ∀ (fuel : ℕ) (t pt : ℚ) (acc res : List ℚ),
      perigeeLoopAux dist endT step fuel t (some (dist pt, pt)) acc = some res →
      res = acc.reverse ++ detectPerigees dist (pt :: sampleTimes endT step fuel t) := by
  intro fuel
  induction fuel with
  | zero =>
    intro t pt acc res h
    by_cases ht : endT < t
    · simp only [perigeeLoopAux, if_pos ht, Option.some.injEq] at h
      simp [sampleTimes, detectPerigees, ← h]
    · simp [perigeeLoopAux, if_neg ht] at h
  | succ fuel ih =>
    intro t pt acc res h
    by_cases ht : endT < t
    · simp only [perigeeLoopAux, if_pos ht, Option.some.injEq] at h
      simp [sampleTimes, ht, detectPerigees, ← h]
    · simp only [perigeeLoopAux, if_neg ht] at h
      by_cases hd : dist pt < dist t
      · simp only [if_pos hd] at h
        have := ih (t + step) t (pt :: acc) res h
        simp only [sampleTimes, if_neg ht, detectPerigees, if_pos hd]
        simpa using this
      · simp only [if_neg hd] at h
        have := ih (t + step) t acc res h
        simp only [sampleTimes, if_neg ht, detectPerigees, if_neg hd]
        exact this

/-- Refinement: whenever the source loop terminates, its output is the
pure detector applied to the visited sample times. -/
theorem perigeeLoop_eq_detect (dist : ℚ → ℚ) (startT endT step : ℚ) (fuel : ℕ)
    (res : List ℚ) (h : perigeeLoop dist startT endT step fuel = some res) :
    res = detectPerigees dist (sampleTimes endT step fuel startT) := by
  cases fuel with
  | zero =>
    by_cases ht : endT < startT
    · simp only [perigeeLoop, perigeeLoopAux, if_pos ht, Option.some.injEq] at h
      simp [sampleTimes, detectPerigees, ← h]
    · simp [perigeeLoop, perigeeLoopAux, if_neg ht] at h
  | succ fuel =>
    by_cases ht : endT < startT
    · simp only [perigeeLoop, perigeeLoopAux, if_pos ht, Option.some.injEq] at h
      simp [sampleTimes, ht, detectPerigees, ← h]
    · simp only [perigeeLoop, perigeeLoopAux, if_neg ht] at h
      have := perigeeLoopAux_some dist endT step fuel (startT + step) startT [] res h
      simpa [sampleTimes, ht] using this

/-- With a nonpositive step and the current time not yet past the end,
the loop never finishes: every fuel yields `none`. -/
theorem perigeeLoopAux_none_of_step_nonpos (dist : ℚ → ℚ) (endT step : ℚ)
    (hstep : step ≤ 0) :
    ∀ (fuel : ℕ) (t : ℚ), t ≤ endT → ∀ prev acc,
      perigeeLoopAux dist endT step fuel t prev acc = none := by
  intro fuel
  induction fuel with
  | zero =>
    intro t ht prev acc
    simp [perigeeLoopAux, not_lt.mpr ht]
  | succ fuel ih =>
    intro t ht prev acc
    have ht' : t + step ≤ endT := le_trans (by linarith) ht
    simp only [perigeeLoopAux, if_neg (not_lt.mpr ht)]
    exact ih (t + step) ht' _ _

/-- The detector output is exactly the first components of the adjacent
sample pairs whose distance strictly increases. -/
theorem detectPerigees_eq_filter (dist : ℚ → ℚ) : ∀ ts : List ℚ,
    detectPerigees dist ts =
      ((ts.zip ts.tail).filter (fun p => decide (dist p.1 < dist p.2))).map Prod.fst
  | [] => by simp [detectPerigees]
  | [t] => by simp [detectPerigees]
  | t0 :: t1 :: rest => by
    have ih := detectPerigees_eq_filter dist (t1 :: rest)
    by_cases h : dist t0 < dist t1
    · simp [detectPerigees, h, ih, List.filter_cons]
    · simp [detectPerigees, h, ih, List.filter_cons]

/-- Every reported perigee is one of the samples other than the last. -/
theorem detectPerigees_subset_dropLast (dist : ℚ → ℚ) :
    ∀ ts : List ℚ, detectPerigees dist ts ⊆ ts.dropLast
  | [] => by simp [detectPerigees]
  | [t] => by simp [detectPerigees]
  | t0 :: t1 :: rest => by
    have ih := detectPerigees_subset_dropLast dist (t1 :: rest)
    intro x hx
    have hdrop : (t0 :: t1 :: rest).dropLast = t0 :: (t1 :: rest).dropLast := rfl
    rw [hdrop]
    by_cases h : dist t0 < dist t1
    · simp only [detectPerigees, if_pos h, List.mem_cons] at hx
      rcases hx with rfl | hx
      · exact List.mem_cons_self _ _
      · exact List.mem_cons_of_mem _ (ih hx)
    · simp only [detectPerigees, if_neg h] at hx
      exact List.mem_cons_of_mem _ (ih hx)

/-- On strictly increasing sample times, the last sample is never
reported. -/
theorem detectPerigees_getLast_not_mem (dist : ℚ → ℚ) (ts : List ℚ)
    (hsorted : ts.Sorted (· < ·)) (hne : ts ≠ []) :
    ts.getLast hne ∉ detectPerigees dist ts := by
  intro hmem
  have hdrop : ts.getLast hne ∈ ts.dropLast := detectPerigees_subset_dropLast dist ts hmem
  have hsplit : ts.dropLast ++ [ts.getLast hne] = ts := List.dropLast_append_getLast hne
  have hnodup : ts.Nodup := hsorted.nodup
  rw [← hsplit] at hnodup
  rcases List.nodup_append.mp hnodup with ⟨-, -, hdisj⟩
  exact hdisj hdrop (List.mem_singleton_self _)

/-- When the distance never increases between consecutive samples, no
perigee is reported. -/
theorem detectPerigees_nil_of_antitone (dist : ℚ → ℚ) :
    ∀ ts : List ℚ, ts.Chain' (fun a b => dist b ≤ dist a) →
      detectPerigees dist ts = []
  | [] => by simp [detectPerigees]
  | [t] => by simp [detectPerigees]
  | t0 :: t1 :: rest => by
    intro hchain
    rcases List.chain'_cons.mp hchain with ⟨hle, hchain'⟩
    have ih := detectPerigees_nil_of_antitone dist (t1 :: rest) hchain'
    simp [detectPerigees, not_lt.mpr hle, ih]

/-!
### Tidal Matcher (lines 105-182)

`subpoint(body, dt)` (lines 110-114) asks the ephemeris for the
geographic sub-point of a body; it is a pure collaborator and is
abstracted as a function `sp : Body → ℚ → ℚ × ℚ` returning
(latitude, longitude) in degrees.
-/

/-- The two celestial bodies passed to `subpoint`. -/
inductive Body where
  | moon
  | sun
  deriving DecidableEq

/-- An earthquake record (lines 38-42): UTC instant, nullable magnitude,
free-text place label. -/
structure Quake where
  quake_time : ℚ
  magnitude : Option ℚ
  place : String
  deriving DecidableEq

/-- One row of the result tables (lines 138-156). -/
structure MatchRecord where
  phase : String
  quake_time : ℚ
  magnitude : Option ℚ
  place : String
  phase_time : ℚ
  phase_offset_hours : ℚ
  perigee_time : ℚ
  perigee_offset_days : ℚ
  sublunar_lat : ℚ
  sublunar_lon : ℚ
  subsolar_lat : ℚ
  subsolar_lon : ℚ
  delta_lat : ℚ
  deriving DecidableEq

/-- Lines 133-156: the record assembled for a qualifying earthquake; the
sub-points of Moon and Sun are both taken at the matched perigee time
`pg_time`, and `delta_lat = abs(sublunar_lat - subsolar_lat)`. -/
def mkRecord (sp : Body → ℚ → ℚ × ℚ) (phase_name : String) (eq : Quake)
    (phase_time phase_sec pg_time pg_sec : ℚ) : MatchRecord :=
  let sl := sp Body.moon pg_time
  let ss := sp Body.sun pg_time
  { phase := phase_name
    quake_time := eq.quake_time
    magnitude := eq.magnitude
    place := eq.place
    phase_time := phase_time
    phase_offset_hours := phase_sec / 3600
    perigee_time := pg_time
    perigee_offset_days := pg_sec / 86400
    sublunar_lat := sl.1
    sublunar_lon := sl.2
    subsolar_lat := ss.1
    subsolar_lon := ss.2
    delta_lat := |sl.1 - ss.1| }

/-- `find_tidal_matches` (lines 119-158): walk the catalog in order; for
each earthquake query the nearest phase event, skip (`continue`) when
its offset exceeds `NEW_MOON_WINDOW_HOURS * 3600` seconds, then query the
nearest perigee, skip when its offset exceeds
`PERIGEE_WINDOW_DAYS * 86400` seconds, otherwise append a record.
`none` models the `ValueError` a `nearest_time` query raises on an empty
event sequence. -/
def find_tidal_matches (sp : Body → ℚ → ℚ × ℚ) (perigees : List ℚ)
    (eq_df : List Quake) (phase_times : List ℚ) (phase_name : String) :
    Option (List MatchRecord) :=
  match eq_df with
  | [] => some []
  | eq :: rest =>
    match nearest_time eq.quake_time phase_times with
    | none => none
    | some (phase_time, phase_sec) =>
      if NEW_MOON_WINDOW_HOURS * 3600 < phase_sec then
        find_tidal_matches sp perigees rest phase_times phase_name
      else
        match nearest_time eq.quake_time perigees with
        | none => none
        | some (pg_time, pg_sec) =>
          if PERIGEE_WINDOW_DAYS * 86400 < pg_sec then
            find_tidal_matches sp perigees rest phase_times phase_name
          else
            (find_tidal_matches sp perigees rest phase_times phase_name).map
              (fun l => mkRecord sp phase_name eq phase_time phase_sec pg_time pg_sec :: l)

/-- The per-earthquake decision of lines 123-156, assuming both
`nearest_time` queries succeed: the emitted record, or `none` when a
window filter rejects the quake. -/
def matchOne (sp : Body → ℚ → ℚ × ℚ) (perigees phase_times : List ℚ)
    (phase_name : String) (eq : Quake) : Option MatchRecord :=
  match nearest_time eq.quake_time phase_times, nearest_time eq.quake_time perigees with
  | some (phase_time, phase_sec), some (pg_time, pg_sec) =>
    if NEW_MOON_WINDOW_HOURS * 3600 < phase_sec then none
    else if PERIGEE_WINDOW_DAYS * 86400 < pg_sec then none
    else some (mkRecord sp phase_name eq phase_time phase_sec pg_time pg_sec)
  | _, _ => none

/-- Lines 172-173: `df[df["delta_lat"] <= DELTA_LAT_THRESHOLD]`. -/
def tightFilter (threshold : ℚ) (df : List MatchRecord) : List MatchRecord :=
  df.filter (fun r => decide (r.delta_lat ≤ threshold))

/-- The four output tables of lines 178-181. -/
structure PipelineOutput where
  df_new : List MatchRecord
  df_full : List MatchRecord
  df_new_tight : List MatchRecord
  df_full_tight : List MatchRecord
  deriving DecidableEq

/-- The whole computation after loading (lines 86-181): perigee sweep,
both matching passes, tight filtering.  `none` when any stage raises. -/
def runPipeline (dist : ℚ → ℚ) (sp : Body → ℚ → ℚ × ℚ)
    (startT endT step : ℚ) (fuel : ℕ) (eq_df : List Quake)
    (new_moons full_moons : List ℚ) : Option PipelineOutput :=
  match perigeeLoop dist startT endT step fuel with
  | none => none
  | some perigees =>
    match find_tidal_matches sp perigees eq_df new_moons "New Moon",
          find_tidal_matches sp perigees eq_df full_moons "Full Moon" with
    | some df_new, some df_full =>
      some ⟨df_new, df_full, tightFilter DELTA_LAT_THRESHOLD df_new,
            tightFilter DELTA_LAT_THRESHOLD df_full⟩
    | _, _ => none

/-- With nonempty phase and perigee sequences no query raises, and the
matching pass is the `filterMap` of the per-earthquake decision over the
catalog. -/
theorem find_tidal_matches_eq_filterMap (sp : Body → ℚ → ℚ × ℚ)
    (perigees phase_times : List ℚ) (hpt : phase_times ≠ []) (hpg : perigees ≠ [])
    (phase_name : String) :
    ∀ eq_df : List Quake,
      find_tidal_matches sp perigees eq_df phase_times phase_name =
        some (eq_df.filterMap (matchOne sp perigees phase_times phase_name))
  | [] => by simp [find_tidal_matches]
  | eq :: rest => by
    have ih := find_tidal_matches_eq_filterMap sp perigees phase_times hpt hpg phase_name rest
    obtain ⟨phase_time, phase_sec, hpp⟩ :
        ∃ a b, nearest_time eq.quake_time phase_times = some (a, b) := by
      cases h : nearest_time eq.quake_time phase_times with
      | none => exact absurd ((nearest_time_eq_none_iff _ _).mp h) hpt
      | some pp => exact ⟨pp.1, pp.2, by simp [h]⟩
    obtain ⟨pg_time, pg_sec, hgp⟩ :
        ∃ a b, nearest_time eq.quake_time perigees = some (a, b) := by
      cases h : nearest_time eq.quake_time perigees with
      | none => exact absurd ((nearest_time_eq_none_iff _ _).mp h) hpg
      | some gp => exact ⟨gp.1, gp.2, by simp [h]⟩
    by_cases h1 : NEW_MOON_WINDOW_HOURS * 3600 < phase_sec
    · simp [find_tidal_matches, matchOne, hpp, hgp, h1, ih, List.filterMap_cons]
    · by_cases h2 : PERIGEE_WINDOW_DAYS * 86400 < pg_sec
      · simp [find_tidal_matches, matchOne, hpp, hgp, h1, h2, ih, List.filterMap_cons]
      · simp [find_tidal_matches, matchOne, hpp, hgp, h1, h2, ih, List.filterMap_cons]

/-- A successful matching pass maps its records' quake times to a
subsequence of the catalog's quake times. -/
theorem find_tidal_matches_sublist (sp : Body → ℚ → ℚ × ℚ)
    (perigees phase_times : List ℚ) (phase_name : String) :
    ∀ (eq_df : List Quake) (res : List MatchRecord),
      find_tidal_matches sp perigees eq_df phase_times phase_name = some res →
      (res.map MatchRecord.quake_time).Sublist (eq_df.map Quake.quake_time)
  | [], res => by
    intro h
    simp only [find_tidal_matches, Option.some.injEq] at h
    simp [← h]
  | eq :: rest, res => by
    intro h
    have ih := find_tidal_matches_sublist sp perigees phase_times phase_name rest
    cases hpp : nearest_time eq.quake_time phase_times with
    | none => simp [find_tidal_matches, hpp] at h
    | some pp =>
      obtain ⟨phase_time, phase_sec⟩ := pp
      simp only [find_tidal_matches, hpp] at h
      by_cases h1 : NEW_MOON_WINDOW_HOURS * 3600 < phase_sec
      · rw [if_pos h1] at h
        exact (ih res h).cons _
      · rw [if_neg h1] at h
        cases hgp : nearest_time eq.quake_time perigees with
        | none => simp [hgp] at h
        | some gp =>
          obtain ⟨pg_time, pg_sec⟩ := gp
          simp only [hgp] at h
          by_cases h2 : PERIGEE_WINDOW_DAYS * 86400 < pg_sec
          · rw [if_pos h2] at h
            exact (ih res h).cons _
          · rw [if_neg h2] at h
            cases hrest : find_tidal_matches sp perigees rest phase_times phase_name with
            | none => rw [hrest] at h; exact absurd h (by simp)
            | some l =>
              rw [hrest] at h
              simp only [Option.map_some', Option.some.injEq] at h
              subst h
              simpa [mkRecord] using (ih l hrest).cons₂ eq.quake_time

/-- Every record of a successful matching pass is assembled by
`mkRecord` from some earthquake and the offsets of its two queries. -/
theorem find_tidal_matches_mem (sp : Body → ℚ → ℚ × ℚ)
    (perigees phase_times : List ℚ) (phase_name : String) :
    ∀ (eq_df : List Quake) (res : List MatchRecord),
      find_tidal_matches sp perigees eq_df phase_times phase_name = some res →
      ∀ r ∈ res, ∃ eq phase_time phase_sec pg_time pg_sec,
        r = mkRecord sp phase_name eq phase_time phase_sec pg_time pg_sec
  | [], res => by
    intro h r hr
    simp only [find_tidal_matches, Option.some.injEq] at h
    rw [← h] at hr
    simp at hr
  | eq :: rest, res => by
    intro h r hr
    have ih := find_tidal_matches_mem sp perigees phase_times phase_name rest
    cases hpp : nearest_time eq.quake_time phase_times with
    | none => simp [find_tidal_matches, hpp] at h
    | some pp =>
      obtain ⟨phase_time, phase_sec⟩ := pp
      simp only [find_tidal_matches, hpp] at h
      by_cases h1 : NEW_MOON_WINDOW_HOURS * 3600 < phase_sec
      · rw [if_pos h1] at h
        exact ih res h r hr
      · rw [if_neg h1] at h
        cases hgp : nearest_time eq.quake_time perigees with
        | none => simp [hgp] at h
        | some gp =>
          obtain ⟨pg_time, pg_sec⟩ := gp
          simp only [hgp] at h
          by_cases h2 : PERIGEE_WINDOW_DAYS * 86400 < pg_sec
          · rw [if_pos h2] at h
            exact ih res h r hr
          · rw [if_neg h2] at h
            cases hrest : find_tidal_matches sp perigees rest phase_times phase_name with
            | none => rw [hrest] at h; exact absurd h (by simp)
            | some l =>
              rw [hrest] at h
              simp only [Option.map_some', Option.some.injEq] at h
              subst h
              rcases List.mem_cons.mp hr with rfl | hr'
              · exact ⟨eq, phase_time, phase_sec, pg_time, pg_sec, rfl⟩
              · exact ih l hrest r hr'

/-!
### Claims
-/

/-- C1: for every nonempty list of instants `S` and query time `T`,
`nearest_time` returns (without failing, deterministically) an element of
`S` with minimum absolute time difference to `T` together with that
difference, and on a time-sorted `S` any tie is broken towards the
earlier instant. -/
theorem C1_nearest_event_query (T : ℚ) (S : List ℚ) (hne : S ≠ []) :
    ∃ m d, nearest_time T S = some (m, d) ∧ m ∈ S ∧ d = |T - m| ∧
      (∀ t ∈ S, |T - m| ≤ |T - t|) ∧
      (S.Sorted (· ≤ ·) → ∀ t ∈ S, |T - t| = |T - m| → m ≤ t) :=
  nearest_time_spec T S hne

/-- C1 witness: the query time 2 is exactly equidistant between 1 and 3;
the query succeeds and returns the earlier instant 1. -/
theorem C1_nearest_event_query_witness :
    ([1, 3] : List ℚ) ≠ [] ∧
      (∃ m d, nearest_time 2 [1, 3] = some (m, d) ∧ m ∈ ([1, 3] : List ℚ) ∧
        d = |2 - m| ∧
        (∀ t ∈ ([1, 3] : List ℚ), |2 - m| ≤ |2 - t|) ∧
        (([1, 3] : List ℚ).Sorted (· ≤ ·) →
          ∀ t ∈ ([1, 3] : List ℚ), |2 - t| = |2 - m| → m ≤ t)) :=
  ⟨by simp, C1_nearest_event_query 2 [1, 3] (by simp)⟩

/-- C5: querying the nearest event on an empty event sequence fails (the
embedded `none` models the `ValueError` that `np.argmin` raises) rather
than returning any result. -/
theorem C5_empty_index_fails (T : ℚ) : nearest_time T [] = none := by
  simp [nearest_time, argmin]

/-- C7: a record is in the tight output exactly when it is an input
record with `delta_lat ≤ threshold`, and the tight output is a
subsequence of the input, preserving order. -/
theorem C7_classifier (threshold : ℚ) (df : List MatchRecord) :
    (∀ r, r ∈ tightFilter threshold df ↔ r ∈ df ∧ r.delta_lat ≤ threshold) ∧
    (tightFilter threshold df).Sublist df := by
  constructor
  · intro r
    simp [tightFilter, List.mem_filter]
  · exact List.filter_sublist df

/-- C2: with nonempty event sequences the matching pass raises no error
and equals the in-order `filterMap` of the per-earthquake decision, and
that decision produces a record exactly when the nearest-phase offset is
at most `NEW_MOON_WINDOW_HOURS * 3600` seconds (36 hours) and the
nearest-perigee offset is at most `PERIGEE_WINDOW_DAYS * 86400` seconds
(2 days), both comparisons boundary-inclusive. -/
theorem C2_window_filter (sp : Body → ℚ → ℚ × ℚ) (perigees phase_times : List ℚ)
    (phase_name : String) (eq_df : List Quake)
    (hpt : phase_times ≠ []) (hpg : perigees ≠ []) :
    find_tidal_matches sp perigees eq_df phase_times phase_name =
      some (eq_df.filterMap (matchOne sp perigees phase_times phase_name)) ∧
    ∀ (eq : Quake) (phase_time phase_sec pg_time pg_sec : ℚ),
      nearest_time eq.quake_time phase_times = some (phase_time, phase_sec) →
      nearest_time eq.quake_time perigees = some (pg_time, pg_sec) →
      ((matchOne sp perigees phase_times phase_name eq).isSome ↔
        (phase_sec ≤ NEW_MOON_WINDOW_HOURS * 3600 ∧
          pg_sec ≤ PERIGEE_WINDOW_DAYS * 86400)) := by
  refine ⟨find_tidal_matches_eq_filterMap sp perigees phase_times hpt hpg phase_name eq_df, ?_⟩
  intro eq phase_time phase_sec pg_time pg_sec hq1 hq2
  by_cases h1 : NEW_MOON_WINDOW_HOURS * 3600 < phase_sec
  · simp [matchOne, hq1, hq2, h1, not_le.mpr h1]
  · by_cases h2 : PERIGEE_WINDOW_DAYS * 86400 < pg_sec
    · simp [matchOne, hq1, hq2, h1, h2, not_le.mpr h2, not_lt.mp h1]
    · simp [matchOne, hq1, hq2, h1, h2, not_lt.mp h1, not_lt.mp h2]

/-- C2 witness: a concrete run with one earthquake and nonempty event
sequences succeeds rather than raising. -/
theorem C2_window_filter_witness :
    find_tidal_matches (fun _ _ => ((0 : ℚ), (0 : ℚ))) [0] [⟨0, none, "q"⟩] [0] "New Moon" ≠
      none := by
  have h := C2_window_filter (fun _ _ => ((0 : ℚ), (0 : ℚ))) [0] [0] "New Moon"
    [⟨0, none, "q"⟩] (by simp) (by simp)
  rw [h.1]
  simp

/-- C3 counterexample: with distance increasing from the start, the loop
reports a perigee at the very first sample of the sweep (the samples are
`[0, 1]` and the reported perigee is `0`), refuting the claim that the
detector never reports at the first sample. -/
theorem C3_counterexample :
    perigeeLoop (fun t => t) 0 1 1 3 = some [0] ∧ sampleTimes 1 1 3 0 = [0, 1] := by
  refine ⟨?_, ?_⟩
  · norm_num [perigeeLoop, perigeeLoopAux]
  · norm_num [sampleTimes]

/-- C3 (amended): every successful sweep reports exactly the samples
whose immediate successor has strictly larger distance (one-sample lag),
so it never reports the last sample; it can report the first one. -/
theorem C3_one_sample_lag (dist : ℚ → ℚ) (startT endT step : ℚ) (fuel : ℕ)
    (res : List ℚ) (h : perigeeLoop dist startT endT step fuel = some res) :
    res = (((sampleTimes endT step fuel startT).zip
          (sampleTimes endT step fuel startT).tail).filter
        (fun p => decide (dist p.1 < dist p.2))).map Prod.fst ∧
    ((sampleTimes endT step fuel startT).Sorted (· < ·) →
      ∀ hne : sampleTimes endT step fuel startT ≠ [],
        (sampleTimes endT step fuel startT).getLast hne ∉ res) := by
  have hdet := perigeeLoop_eq_detect dist startT endT step fuel res h
  constructor
  · rw [hdet]
    exact detectPerigees_eq_filter dist _
  · intro hsorted hne
    rw [hdet]
    exact detectPerigees_getLast_not_mem dist _ hsorted hne

/-- C3 witness: a concrete decreasing sweep reports nothing, and in
particular not its last sample. -/
theorem C3_one_sample_lag_witness :
    perigeeLoop (fun t => -t) 0 1 1 3 = some [] ∧
      ([] : List ℚ) = (((sampleTimes 1 1 3 0).zip (sampleTimes 1 1 3 0).tail).filter
          (fun p => decide (-p.1 < -p.2))).map Prod.fst ∧
      ((sampleTimes 1 1 3 0).Sorted (· < ·) →
        ∀ hne : sampleTimes 1 1 3 0 ≠ [],
          (sampleTimes 1 1 3 0).getLast hne ∉ ([] : List ℚ)) :=
  ⟨by norm_num [perigeeLoop, perigeeLoopAux],
    C3_one_sample_lag (fun t => -t) 0 1 1 3 [] (by norm_num [perigeeLoop, perigeeLoopAux])⟩

/-- C4 counterexample: at the configuration start = end = 0 with step 0
the loop never terminates — no amount of fuel produces a result, in
particular not the empty sequence the claim requires. -/
theorem C4_counterexample :
    ¬ ∃ (fuel : ℕ) (res : List ℚ), perigeeLoop (fun _ => 0) 0 0 0 fuel = some res := by
  rintro ⟨fuel, res, h⟩
  have hnone := perigeeLoopAux_none_of_step_nonpos (fun _ => 0) 0 0 le_rfl fuel 0 le_rfl
    none []
  rw [perigeeLoop] at h
  rw [hnone] at h
  exact absurd h (by simp)

/-- C4 (amended): with `end < start` the loop terminates immediately with
an empty perigee sequence (for every fuel), but with step ≤ 0 and
start ≤ end it never terminates (every fuel yields `none`). -/
theorem C4_degenerate_config (dist : ℚ → ℚ) (startT endT step : ℚ) :
    (endT < startT → ∀ fuel, perigeeLoop dist startT endT step fuel = some []) ∧
    (step ≤ 0 → startT ≤ endT → ∀ fuel, perigeeLoop dist startT endT step fuel = none) := by
  constructor
  · intro hlt fuel
    cases fuel with
    | zero => simp [perigeeLoop, perigeeLoopAux, hlt]
    | succ fuel => simp [perigeeLoop, perigeeLoopAux, hlt]
  · intro hstep hle fuel
    exact perigeeLoopAux_none_of_step_nonpos dist endT step hstep fuel startT hle none []

/-- C4 witness: both degenerate configurations exercised concretely. -/
theorem C4_degenerate_config_witness :
    ((0 : ℚ) < 1 ∧ perigeeLoop (fun _ => (0 : ℚ)) 1 0 1 5 = some []) ∧
      ((0 : ℚ) ≤ 0 ∧ (0 : ℚ) ≤ 1 ∧ perigeeLoop (fun _ => (0 : ℚ)) 0 1 0 5 = none) :=
  ⟨⟨by norm_num, (C4_degenerate_config (fun _ => (0 : ℚ)) 1 0 1).1 (by norm_num) 5⟩,
    ⟨le_rfl, by norm_num,
      (C4_degenerate_config (fun _ => (0 : ℚ)) 0 1 0).2 le_rfl (by norm_num) 5⟩⟩

/-- C6: in every record of a successful matching pass, the sub-lunar and
sub-solar points are the sub-points computed at the record's perigee
time, and `delta_lat` is the absolute difference of the two latitudes,
hence nonnegative. -/
theorem C6_alignment_at_perigee (sp : Body → ℚ → ℚ × ℚ) (perigees phase_times : List ℚ)
    (eq_df : List Quake) (phase_name : String) (res : List MatchRecord)
    (h : find_tidal_matches sp perigees eq_df phase_times phase_name = some res) :
    ∀ r ∈ res,
      r.sublunar_lat = (sp Body.moon r.perigee_time).1 ∧
      r.sublunar_lon = (sp Body.moon r.perigee_time).2 ∧
      r.subsolar_lat = (sp Body.sun r.perigee_time).1 ∧
      r.subsolar_lon = (sp Body.sun r.perigee_time).2 ∧
      r.delta_lat = |r.sublunar_lat - r.subsolar_lat| ∧
      0 ≤ r.delta_lat := by
  intro r hr
  obtain ⟨eq, pt, ps, pgt, pgs, rfl⟩ :=
    find_tidal_matches_mem sp perigees phase_times phase_name eq_df res h r hr
  exact ⟨rfl, rfl, rfl, rfl, rfl, abs_nonneg _⟩

/-- C6 witness: a concrete run producing one record whose `delta_lat` is
nonnegative, via the claim theorem. -/
theorem C6_alignment_at_perigee_witness :
    0 ≤ (mkRecord (fun _ _ => ((3 : ℚ), (4 : ℚ))) "New Moon" ⟨0, none, "q"⟩ 0 0 0 0).delta_lat := by
  have h := C6_alignment_at_perigee (fun _ _ => ((3 : ℚ), (4 : ℚ))) [0] [0] [⟨0, none, "q"⟩]
    "New Moon" [mkRecord (fun _ _ => ((3 : ℚ), (4 : ℚ))) "New Moon" ⟨0, none, "q"⟩ 0 0 0 0]
    (by norm_num [find_tidal_matches, nearest_time, argmin, argminAux, mkRecord,
      NEW_MOON_WINDOW_HOURS, PERIGEE_WINDOW_DAYS])
    (mkRecord (fun _ _ => ((3 : ℚ), (4 : ℚ))) "New Moon" ⟨0, none, "q"⟩ 0 0 0 0)
    (by simp)
  exact h.2.2.2.2.2

/-- C8: a successful matching pass preserves catalog order — the quake
times of the output form a subsequence of the catalog's quake times —
and each earthquake contributes at most one record per pass (each quake
time occurs in the output no more often than in the catalog). -/
theorem C8_catalog_order (sp : Body → ℚ → ℚ × ℚ) (perigees phase_times : List ℚ)
    (phase_name : String) (eq_df : List Quake) (res : List MatchRecord)
    (h : find_tidal_matches sp perigees eq_df phase_times phase_name = some res) :
    (res.map MatchRecord.quake_time).Sublist (eq_df.map Quake.quake_time) ∧
    ∀ q : ℚ, (res.map MatchRecord.quake_time).count q ≤
      (eq_df.map Quake.quake_time).count q := by
  have hs := find_tidal_matches_sublist sp perigees phase_times phase_name eq_df res h
  exact ⟨hs, fun q => hs.count_le q⟩

/-- C8 witness: a concrete one-quake run whose output quake times are a
subsequence of the catalog quake times. -/
theorem C8_catalog_order_witness :
    (([mkRecord (fun _ _ => ((0 : ℚ), (0 : ℚ))) "Full Moon" ⟨0, none, "q"⟩ 0 0 0 0] :
        List MatchRecord).map MatchRecord.quake_time).Sublist
      (([⟨0, none, "q"⟩] : List Quake).map Quake.quake_time) :=
  (C8_catalog_order (fun _ _ => ((0 : ℚ), (0 : ℚ))) [0] [0] "Full Moon" [⟨0, none, "q"⟩]
    [mkRecord (fun _ _ => ((0 : ℚ), (0 : ℚ))) "Full Moon" ⟨0, none, "q"⟩ 0 0 0 0]
    (by norm_num [find_tidal_matches, nearest_time, argmin, argminAux, mkRecord,
      NEW_MOON_WINDOW_HOURS, PERIGEE_WINDOW_DAYS])).1

/-- C9: the pipeline (perigee sweep, both matching passes, tight
filtering) is a pure function of its inputs — two runs on equal inputs
produce equal output tables. -/
theorem C9_pipeline_deterministic
    (dist1 dist2 : ℚ → ℚ) (sp1 sp2 : Body → ℚ → ℚ × ℚ)
    (startT1 startT2 endT1 endT2 step1 step2 : ℚ) (fuel1 fuel2 : ℕ)
    (eq_df1 eq_df2 : List Quake) (nm1 nm2 fm1 fm2 : List ℚ)
    (h : (dist1, sp1, startT1, endT1, step1, fuel1, eq_df1, nm1, fm1) =
      (dist2, sp2, startT2, endT2, step2, fuel2, eq_df2, nm2, fm2)) :
    runPipeline dist1 sp1 startT1 endT1 step1 fuel1 eq_df1 nm1 fm1 =
      runPipeline dist2 sp2 startT2 endT2 step2 fuel2 eq_df2 nm2 fm2 := by
  simp only [Prod.mk.injEq] at h
  obtain ⟨rfl, rfl, rfl, rfl, rfl, rfl, rfl, rfl, rfl⟩ := h
  rfl

/-- C9 witness: two identical concrete runs agree. -/
theorem C9_pipeline_deterministic_witness :
    runPipeline (fun _ => (0 : ℚ)) (fun _ _ => ((0 : ℚ), (0 : ℚ))) 0 0 1 2 [] [] [] =
      runPipeline (fun _ => (0 : ℚ)) (fun _ _ => ((0 : ℚ), (0 : ℚ))) 0 0 1 2 [] [] [] :=
  C9_pipeline_deterministic _ _ _ _ 0 0 0 0 1 1 2 2 [] [] [] [] [] [] rfl

/-- C10: the detector triggers only on a strict increase of the sampled
distance — an entirely non-increasing sweep reports nothing, and a
plateau (equal consecutive distances) contributes no perigee. -/
theorem C10_strict_increase_only (dist : ℚ → ℚ) (ts : List ℚ) :
    (ts.Chain' (fun a b => dist b ≤ dist a) → detectPerigees dist ts = []) ∧
    (∀ t0 t1 rest, ts = t0 :: t1 :: rest → dist t1 = dist t0 →
      detectPerigees dist ts = detectPerigees dist (t1 :: rest)) := by
  constructor
  · exact detectPerigees_nil_of_antitone dist ts
  · rintro t0 t1 rest rfl heq
    simp [detectPerigees, heq]

/-- C10 witness: with a constant distance, the sweep `[0, 1]` reports
nothing and its plateau step is skipped. -/
theorem C10_strict_increase_only_witness :
    detectPerigees (fun _ => (0 : ℚ)) [0, 1] = [] ∧
      detectPerigees (fun _ => (0 : ℚ)) [0, 1] = detectPerigees (fun _ => (0 : ℚ)) [1] :=
  ⟨(C10_strict_increase_only (fun _ => (0 : ℚ)) [0, 1]).1 (by simp [List.chain'_cons]),
    (C10_strict_increase_only (fun _ => (0 : ℚ)) [0, 1]).2 0 1 [] rfl rfl⟩

end NewmoonFullmoon
